import Mathlib

/-! # config-shim: configuration parser and update-marker rewriter

Shallow embedding of the core of `config-shim` (src/main.go): the update
rewriter `replaceLine` / `replaceConfigValues` / `updateConfig`, and the
assignment parser used by `getVars`.  Go strings are embedded as `List Char`.

The assignment parser in the current sources is the third-party library
call `godotenv.Parse` (src/main.go:187, src/main.go:229), whose code is not
part of this repository; it is modelled from the specification (§4.1-§4.2,
§8) and pinned by the repository's own test vectors in
`TestGetVars` (src/main_test.go:13-88).  The update rewriter, by contrast,
is plain string code in src/main.go and is embedded directly from it. -/

namespace ConfigShim

/-- The single-quote character, written via its code point. -/
def squote : Char := Char.ofNat 39

/-- The backslash character, written via its code point. -/
def bslash : Char := Char.ofNat 92

/-- Splits a list at the first occurrence of `c`.  This models Go's
`strings.SplitN(s, sep, 2)` for a one-character separator `sep`:
`some (before, after)` when `sep` occurs in `s` (the two-element slice),
`none` when it does not (the one-element slice, `len(parts) != 2`). -/
def splitFirst (c : Char) : List Char → Option (List Char × List Char)
  | [] => none
  | x :: xs =>
    if x = c then some ([], xs)
    else (splitFirst c xs).map (fun p => (x :: p.1, p.2))

/-- The literal update marker `{update}` tested for with
`strings.Contains(parts[1], "{update}")` (src/main.go:265). -/
def marker : List Char := "{update}".data

/-- The two characters `='` of the Sprintf format `%s='%s' #%s`
(src/main.go:270). -/
def eqQuote : List Char := [ '=', squote]

/-- The three characters `' #` (quote, space, hash) of the Sprintf format
`%s='%s' #%s` (src/main.go:270). -/
def quoteSpHash : List Char := [squote, ' ', '#']

/-- `replaceLine` (src/main.go:255-276): if the line starts with the
variable name, contains a `#`, and the part after the first `#` contains
the `{update}` marker, the line is re-emitted as `VAR='NEWVALUE' #COMMENT`;
otherwise it is returned unchanged.  The Go function also returns an
`error` value that is `nil` on every return path, so it is embedded as a
pure function. -/
def replaceLine (line varname newValue : List Char) : List Char :=
  if varname <+: line then
    match splitFirst '#' line with
    | some (_, comment) =>
      if marker <:+: comment then
        varname ++ eqQuote ++ newValue ++ quoteSpHash ++ comment
      else line
    | none => line
  else line

/-- `bufio.ScanLines` drops one trailing carriage return from each line. -/
def dropCR (l : List Char) : List Char :=
  if l.getLast? = some '\r' then l.dropLast else l

/-- Splits a list on every occurrence of `c` (like Go's `strings.Split`):
the result has one entry per separator-free segment, and is `[[]]` on empty
input. -/
def splitOnChar (c : Char) : List Char → List (List Char)
  | [] => [[]]
  | x :: xs =>
    if x = c then [] :: splitOnChar c xs
    else
      match splitOnChar c xs with
      | [] => [[x]]
      | h :: t => (x :: h) :: t

/-- The token sequence produced by a `bufio.Scanner` with the default
`ScanLines` split function (the loop of src/main.go:234-246): newline
separated lines, the final line delivered even without a trailing newline,
no empty final token for input that ends in a newline, no tokens at all for
empty input, and a trailing carriage return stripped from each line. -/
def scanLines (s : List Char) : List (List Char) :=
  if s = [] then []
  else
    (if s.getLast? = some '\n' then (splitOnChar '\n' s).dropLast
     else splitOnChar '\n' s).map dropCR

/-- One pass of the loop body of `replaceConfigValues` over a single line
(src/main.go:238-244): `replaceLine` is applied once for every entry of the
parsed local environment.  Go iterates the `envVars` map in unspecified
order; the embedding takes the environment as an association list and folds
over it, and the order-(in)dependence of this fold is settled separately. -/
def applyEnv (env : List (List Char × List Char)) (line : List Char) : List Char :=
  env.foldl (fun l p => replaceLine l p.1 p.2) line

/-- `replaceConfigValues` (src/main.go:227-252).  The local environment is
obtained in Go as `godotenv.Parse(strings.Join(os.Environ(), "\n"))`; since
`os.Environ` is ambient process state and `godotenv` is external, the
embedding receives the outcome of that parse as a parameter: either the
parsed key/value pairs or a parse error, which the Go code wraps with the
message prefix seen below and returns.  On success every scanned line is
rewritten with `applyEnv` and re-emitted with a trailing newline
(`output.WriteString(line + "\n")`). -/
def replaceConfigValues (envParse : Except String (List (List Char × List Char)))
    (cfg : List Char) : Except String (List Char) :=
  match envParse with
  | Except.error e =>
    Except.error ( "failed to parse environment variables using godotenv.Parse: " ++ e)
  | Except.ok envVars =>
    Except.ok (((scanLines cfg).map (fun line => applyEnv envVars line ++ [ '\n'])).flatten)

/-- `updateConfig` (src/main.go:209-224): first `replaceConfigValues`; on
failure its error is wrapped with `failure replacing values: ` and returned
at once; only on success is `deployNewConfig` invoked (an AWS call, modelled
by its outcome `deployResult`), whose failure is wrapped with
`failed to deploy config: `.  The boolean of the result records whether
`deployNewConfig` was invoked. -/
def updateConfig (envParse : Except String (List (List Char × List Char)))
    (deployResult : Except String Unit) (configData : List Char) :
    Except String (List Char) × Bool :=
  match replaceConfigValues envParse configData with
  | Except.error e => (Except.error ( "failure replacing values: " ++ e), false)
  | Except.ok newCfg =>
    match deployResult with
    | Except.error e => (Except.error ( "failed to deploy config: " ++ e), true)
    | Except.ok _ => (Except.ok newCfg, true)

/-- Decides whether a line carries an update-marked comment: it has a `#`
and the part after the first `#` contains `{update}` (the two final guards
of src/main.go:260-267). -/
def markedComment (line : List Char) : Bool :=
  match splitFirst '#' line with
  | some (_, c) => decide (marker <:+: c)
  | none => false

/-- Modelled from the spec: the Line Tokenizer of the assignment parser
(`godotenv.Parse` is not part of this repository's sources).  Spec §4.1:
newline-delimited raw lines, the final line included even without a
trailing newline, an empty input yielding an empty sequence. -/
def tokenizeLines (s : List Char) : List (List Char) :=
  if s = [] then [] else splitOnChar '\n' s

/-- Modelled from the spec: unescaping applied inside a double-quoted
value.  Spec §8 gives the literal pair `A="{\"type\":\"service_account\"}"`
→ `{"type":"service_account"}` ("verify against literal input/output pairs,
not inferred"), the same pair the repository pins in `TestGetVars`
(src/main_test.go:64-68): each backslash-quote pair collapses to a bare
quote. -/
def unescape : List Char → List Char
  | [] => []
  | [c] => [c]
  | a :: b :: rest =>
    if a = bslash ∧ b = '"' then '"' :: unescape rest
    else a :: unescape (b :: rest)

/-- Modelled from the spec: stripping a trailing ` #...` comment from an
unquoted value (spec §4.2 step 4), pinned by the `comment after value` case
of `TestGetVars` (src/main_test.go:55-58): everything from the first
space-hash pair on is removed. -/
def stripComment : List Char → List Char
  | [] => []
  | [c] => [c]
  | a :: b :: rest =>
    if a = ' ' ∧ b = '#' then []
    else a :: stripComment (b :: rest)

/-- Modelled from the spec: decoding of the part after the first `=`
(spec §4.2 steps 3-4): if it is wrapped in a matching pair of double quotes
(first and last byte both `"`, length at least 2) exactly one leading and
one trailing quote are stripped and the inside is unescaped (see
`unescape`); otherwise a trailing comment is stripped. -/
def parseValue (rem : List Char) : List Char :=
  if 2 ≤ rem.length ∧ rem.head? = some '"' ∧ rem.getLast? = some '"' then
    unescape (rem.dropLast.drop 1)
  else stripComment rem

/-- Modelled from the spec: classification and decoding of one raw line
(spec §4.2 steps 1-2): blank or whitespace-only lines, lines beginning with
`#`, and lines without `=` are not assignments; otherwise the line splits
at the first `=` into key and remainder. -/
def parseLine (line : List Char) : Option (List Char × List Char) :=
  if line.all (fun c => decide (c = ' ')) then none
  else if line.head? = some '#' then none
  else
    match splitFirst '=' line with
    | none => none
    | some (key, remainder) => some (key, parseValue remainder)

/-- Tests that an entry's key differs from `k`. -/
def keyNe (k : List Char) (p : List Char × List Char) : Bool :=
  decide (p.1 ≠ k)

/-- Inserts a key/value pair into the association list representing the
map built by the parser, overriding any earlier entry with the same key. -/
def upsert (m : List (List Char × List Char)) (k v : List Char) :
    List (List Char × List Char) :=
  m.filter (keyNe k) ++ [(k, v)]

/-- Modelled from the spec: the assignment lines of a configuration text,
in original order (spec §4.2). -/
def configAssignments (s : List Char) : List (List Char × List Char) :=
  (tokenizeLines s).filterMap parseLine

/-- Modelled from the spec: the VarMap produced by parsing a configuration
text (the map returned by `godotenv.Parse` in `getVars`,
src/main.go:186-205): assignments are entered in line order, a later line
with the same key overriding an earlier one (spec §4.2: last-write-wins). -/
def parseConfig (s : List Char) : List (List Char × List Char) :=
  (configAssignments s).foldl (fun m p => upsert m p.1 p.2) []

/-- Looks a key up in the association list (first match). -/
def lookupKey (k : List Char) : List (List Char × List Char) → Option (List Char)
  | [] => none
  | p :: rest => if p.1 = k then some p.2 else lookupKey k rest

/-- The newline-normalized form of a configuration text: its scanner lines
re-emitted with one trailing newline each.  Stated from the spec's words
("returns the input unchanged (newline-normalized)", spec §8) as the
comparison object for the no-op pass-through property. -/
def specNewlineNormalized (cfg : List Char) : List Char :=
  ((scanLines cfg).map (fun l => l ++ [ '\n'])).flatten

/-! ## Basic facts about `splitFirst` and `splitOnChar` -/

theorem splitOnChar_cons (c x : Char) (xs : List Char) :
    splitOnChar c (x :: xs)
      = if x = c then [] :: splitOnChar c xs
        else
          match splitOnChar c xs with
          | [] => [[x]]
          | h :: t => (x :: h) :: t := rfl

theorem splitFirst_of_not_mem {c : Char} {l : List Char} (h : c ∉ l) :
    splitFirst c l = none := by
  induction l with
  | nil => rfl
  | cons x xs ih =>
    have hx : ¬ x = c := by rintro rfl; exact h (List.mem_cons_self x xs)
    have hxs : c ∉ xs := fun hm => h (List.mem_cons_of_mem x hm)
    simp [splitFirst, hx, ih hxs]

theorem splitFirst_append {c : Char} {a : List Char} (h : c ∉ a) (b : List Char) :
    splitFirst c (a ++ c :: b) = some (a, b) := by
  induction a with
  | nil => simp [splitFirst]
  | cons x xs ih =>
    have hx : ¬ x = c := by rintro rfl; exact h (List.mem_cons_self x xs)
    have hxs : c ∉ xs := fun hm => h (List.mem_cons_of_mem x hm)
    simp [splitFirst, hx, ih hxs]

theorem splitFirst_eq_some {c : Char} {l a b : List Char}
    (h : splitFirst c l = some (a, b)) : l = a ++ c :: b ∧ c ∉ a := by
  induction l generalizing a b with
  | nil => simp [splitFirst] at h
  | cons x xs ih =>
    by_cases hx : x = c
    · subst hx
      simp [splitFirst] at h
      obtain ⟨rfl, rfl⟩ := h
      simp
    · simp [splitFirst, hx] at h
      obtain ⟨a', hs, ha⟩ := h
      obtain ⟨hl, hm⟩ := ih hs
      constructor
      · rw [← ha, hl]; simp
      · rw [← ha]
        intro hmem
        rcases List.mem_cons.mp hmem with h1 | h1
        · exact hx h1.symm
        · exact hm h1

/-! ## Basic facts about `replaceLine` -/

theorem replaceLine_prefix_miss {line k v : List Char} (hp : ¬ k <+: line) :
    replaceLine line k v = line := by
  simp [replaceLine, hp]

theorem replaceLine_no_hash {line k v : List Char}
    (hs : splitFirst '#' line = none) : replaceLine line k v = line := by
  by_cases hp : k <+: line <;> simp [replaceLine, hp, hs]

theorem replaceLine_not_marked {line k v a c : List Char}
    (hs : splitFirst '#' line = some (a, c)) (hm : ¬ marker <:+: c) :
    replaceLine line k v = line := by
  by_cases hp : k <+: line <;> simp [replaceLine, hp, hs, hm]

theorem replaceLine_marked {line k v a c : List Char}
    (hp : k <+: line) (hs : splitFirst '#' line = some (a, c))
    (hm : marker <:+: c) :
    replaceLine line k v = k ++ eqQuote ++ v ++ quoteSpHash ++ c := by
  simp [replaceLine, hp, hs, hm]

/-! ## Structure of a rewritten line -/

theorem rewrite_as_append (k v c : List Char) :
    k ++ eqQuote ++ v ++ quoteSpHash ++ c
      = (k ++ eqQuote ++ v ++ [squote, ' ']) ++ '#' :: c := by
  simp [eqQuote, quoteSpHash, List.append_assoc]

theorem splitFirst_rewrite {k v : List Char} (c : List Char)
    (hk : '#' ∉ k) (hv : '#' ∉ v) :
    splitFirst '#' (k ++ eqQuote ++ v ++ quoteSpHash ++ c)
      = some (k ++ eqQuote ++ v ++ [squote, ' '], c) := by
  rw [rewrite_as_append]
  apply splitFirst_append
  intro hmem
  rcases List.mem_append.mp hmem with h | h
  · rcases List.mem_append.mp h with h | h
    · rcases List.mem_append.mp h with h | h
      · exact hk h
      · revert h; decide
    · exact hv h
  · revert h; decide

theorem prefix_comparable {l₁ l₂ l₃ : List Char} (h1 : l₁ <+: l₃) (h2 : l₂ <+: l₃) :
    l₁ <+: l₂ ∨ l₂ <+: l₁ := by
  rcases le_total l₁.length l₂.length with h | h
  · exact Or.inl ( List.prefix_of_prefix_length_le h1 h2 h)
  · exact Or.inr ( List.prefix_of_prefix_length_le h2 h1 h)

theorem prefix_antisymm {l₁ l₂ : List Char} (h1 : l₁ <+: l₂) (h2 : l₂ <+: l₁) :
    l₁ = l₂ :=
  h1.eq_of_length (Nat.le_antisymm h1.length_le h2.length_le)

theorem self_prefix_rewrite (k v c : List Char) :
    k <+: k ++ eqQuote ++ v ++ quoteSpHash ++ c := by
  have h : k ++ eqQuote ++ v ++ quoteSpHash ++ c
      = k ++ (eqQuote ++ (v ++ (quoteSpHash ++ c))) := by
    simp [List.append_assoc]
  rw [h]
  exact List.prefix_append k (eqQuote ++ (v ++ (quoteSpHash ++ c)))

theorem prefix_of_prefix_rewrite {k2 k v c : List Char}
    (h : k2 <+: k ++ eqQuote ++ v ++ quoteSpHash ++ c)
    (hne : k2 ≠ k) (he : '=' ∉ k2) : k2 <+: k := by
  rcases prefix_comparable h (self_prefix_rewrite k v c) with h' | h'
  · exact h'
  · exfalso
    obtain ⟨r, hr⟩ := h'
    have hassoc : k ++ eqQuote ++ v ++ quoteSpHash ++ c
        = k ++ (eqQuote ++ (v ++ (quoteSpHash ++ c))) := by
      simp [List.append_assoc]
    rw [hassoc, ← hr] at h
    obtain ⟨s, hs⟩ := h
    rw [List.append_assoc] at hs
    have htail : r ++ s = eqQuote ++ (v ++ (quoteSpHash ++ c)) :=
      List.append_cancel_left hs
    cases r with
    | nil => exact hne (by rw [← hr]; simp)
    | cons x r' =>
      have hx : x = '=' := by
        have := congrArg (fun l => l.head?) htail
        simpa [eqQuote] using this
      apply he
      rw [← hr, hx]
      exact List.mem_append.mpr (Or.inr (List.mem_cons_self '=' r'))

/-! ## Commutativity of `replaceLine` for distinct well-formed keys -/

theorem replaceLine_comm_one {L k1 v1 k2 v2 a c : List Char}
    (hs : splitFirst '#' L = some (a, c)) (hm : marker <:+: c)
    (hp1 : k1 <+: L) (hp2 : ¬ k2 <+: L) (hne : k1 ≠ k2) (h2e : '=' ∉ k2) :
    replaceLine (replaceLine L k1 v1) k2 v2
      = replaceLine (replaceLine L k2 v2) k1 v1 := by
  rw [replaceLine_prefix_miss hp2, replaceLine_marked hp1 hs hm]
  apply replaceLine_prefix_miss
  intro hpre
  exact hp2 ((prefix_of_prefix_rewrite hpre (Ne.symm hne) h2e).trans hp1)

theorem replaceLine_comm_two {L k1 v1 k2 v2 a c : List Char}
    (hs : splitFirst '#' L = some (a, c)) (hm : marker <:+: c)
    (hp1 : k1 <+: L) (hp2 : k2 <+: L) (h21 : k2 <+: k1) (hne : k1 ≠ k2)
    (h1e : '=' ∉ k1) (h1h : '#' ∉ k1) (h1v : '#' ∉ v1) :
    replaceLine (replaceLine L k1 v1) k2 v2
      = replaceLine (replaceLine L k2 v2) k1 v1 := by
  rw [replaceLine_marked hp1 hs hm, replaceLine_marked hp2 hs hm]
  have hpre2 : k2 <+: k1 ++ eqQuote ++ v1 ++ quoteSpHash ++ c :=
    h21.trans (self_prefix_rewrite k1 v1 c)
  rw [replaceLine_marked hpre2 (splitFirst_rewrite c h1h h1v) hm]
  have hnp : ¬ k1 <+: k2 ++ eqQuote ++ v2 ++ quoteSpHash ++ c := by
    intro hpre
    exact hne (prefix_antisymm (prefix_of_prefix_rewrite hpre hne h1e) h21)
  rw [replaceLine_prefix_miss hnp]

theorem replaceLine_comm (L k1 v1 k2 v2 : List Char) (hne : k1 ≠ k2)
    (h1e : '=' ∉ k1) (h1h : '#' ∉ k1) (h1v : '#' ∉ v1)
    (h2e : '=' ∉ k2) (h2h : '#' ∉ k2) (h2v : '#' ∉ v2) :
    replaceLine (replaceLine L k1 v1) k2 v2
      = replaceLine (replaceLine L k2 v2) k1 v1 := by
  rcases hs : splitFirst '#' L with _ | ⟨a, c⟩
  · simp only [replaceLine_no_hash hs]
  · by_cases hm : marker <:+: c
    · by_cases hp1 : k1 <+: L <;> by_cases hp2 : k2 <+: L
      · rcases prefix_comparable hp1 hp2 with h12 | h21
        · exact (replaceLine_comm_two hs hm hp2 hp1 h12 (Ne.symm hne) h2e h2h h2v).symm
        · exact replaceLine_comm_two hs hm hp1 hp2 h21 hne h1e h1h h1v
      · exact replaceLine_comm_one hs hm hp1 hp2 hne h2e
      · exact (replaceLine_comm_one hs hm hp2 hp1 (Ne.symm hne) h1e).symm
      · simp only [replaceLine_prefix_miss hp1, replaceLine_prefix_miss hp2]
    · simp only [replaceLine_not_marked hs hm]

/-! ## The per-line environment fold -/

theorem applyEnv_fix {env : List (List Char × List Char)} {line : List Char}
    (h : ∀ p ∈ env, replaceLine line p.1 p.2 = line) : applyEnv env line = line := by
  induction env with
  | nil => rfl
  | cons p t ih =>
    unfold applyEnv at *
    simp only [List.foldl_cons]
    rw [h p (List.mem_cons_self p t)]
    exact ih (fun q hq => h q (List.mem_cons_of_mem p hq))

theorem markedComment_eq_false {line : List Char} (h : markedComment line = false) :
    ∀ k v, replaceLine line k v = line := by
  intro k v
  rcases hs : splitFirst '#' line with _ | ⟨a, c⟩
  · exact replaceLine_no_hash hs
  · apply replaceLine_not_marked hs
    unfold markedComment at h
    rw [hs] at h
    simpa using h

theorem markedComment_eq_true {line a c : List Char}
    (hs : splitFirst '#' line = some (a, c)) (hm : marker <:+: c) :
    markedComment line = true := by
  unfold markedComment
  rw [hs]
  simpa using hm

/-! ## Lines and newline-terminated re-serialization -/

theorem splitOnChar_ne_nil (c : Char) (s : List Char) : splitOnChar c s ≠ [] := by
  cases s with
  | nil => simp [splitOnChar]
  | cons x xs =>
    by_cases hx : x = c
    · simp [splitOnChar, hx]
    · rcases hr : splitOnChar c xs with _ | ⟨h, t⟩
      · simp [splitOnChar, hx, hr]
      · simp [splitOnChar, hx, hr]

theorem two_le_length_splitOnChar {c : Char} {s : List Char}
    (h : s.getLast? = some c) : 2 ≤ (splitOnChar c s).length := by
  induction s with
  | nil => simp at h
  | cons x xs ih =>
    cases xs with
    | nil =>
      simp only [List.getLast?_singleton, Option.some.injEq] at h
      subst h
      simp [splitOnChar]
    | cons y ys =>
      have h' : (y :: ys).getLast? = some c := by
        rw [← h, List.getLast?_cons_cons]
      have ih' := ih h'
      by_cases hx : x = c
      · rw [splitOnChar_cons, if_pos hx, List.length_cons]
        omega
      · rcases hr : splitOnChar c (y :: ys) with _ | ⟨hh, tt⟩
        · exact absurd hr (splitOnChar_ne_nil c (y :: ys))
        · rw [splitOnChar_cons, if_neg hx, hr, List.length_cons]
          rw [hr, List.length_cons] at ih'
          omega

theorem scanLines_ne_nil {s : List Char} (h : s ≠ []) : scanLines s ≠ [] := by
  unfold scanLines
  rw [if_neg h]
  by_cases hl : s.getLast? = some '\n'
  · rw [if_pos hl]
    apply List.ne_nil_of_length_pos
    rw [List.length_map, List.length_dropLast]
    have h2 := two_le_length_splitOnChar hl
    omega
  · rw [if_neg hl]
    apply List.ne_nil_of_length_pos
    rw [List.length_map]
    have := splitOnChar_ne_nil '\n' s
    exact List.length_pos.mpr this

theorem flatten_map_newline_getLast (f : List Char → List Char)
    (ls : List (List Char)) (h : ls ≠ []) :
    ((ls.map (fun l => f l ++ [ '\n'])).flatten).getLast? = some '\n' := by
  induction ls with
  | nil => cases h rfl
  | cons b t ih =>
    cases t with
    | nil => simp
    | cons b2 t2 =>
      have ih' := ih (by simp)
      simp only [List.map_cons, List.flatten_cons] at *
      rw [List.getLast?_append, ih']
      rfl

/-! ## Lookup in the parsed map -/

theorem lookupKey_cons (k : List Char) (p : List Char × List Char)
    (t : List (List Char × List Char)) :
    lookupKey k (p :: t) = if p.1 = k then some p.2 else lookupKey k t := rfl

theorem lookupKey_append (k : List Char) (l₁ l₂ : List (List Char × List Char)) :
    lookupKey k (l₁ ++ l₂) = (lookupKey k l₁).or (lookupKey k l₂) := by
  induction l₁ with
  | nil => rfl
  | cons p t ih =>
    rw [List.cons_append, lookupKey_cons, lookupKey_cons]
    by_cases hp : p.1 = k
    · rw [if_pos hp, if_pos hp]; rfl
    · rw [if_neg hp, if_neg hp, ih]

theorem lookupKey_filter_ne {k k' : List Char} (h : k' ≠ k)
    (m : List (List Char × List Char)) :
    lookupKey k (m.filter (keyNe k')) = lookupKey k m := by
  induction m with
  | nil => rfl
  | cons p t ih =>
    by_cases hp : p.1 = k'
    · have hf : keyNe k' p = false := by simp [keyNe, hp]
      have hpk : ¬ p.1 = k := by rw [hp]; exact h
      simp [List.filter_cons, hf, lookupKey_cons, hpk, ih]
    · have hf : keyNe k' p = true := by simp [keyNe, hp]
      by_cases hk : p.1 = k <;>
        simp [List.filter_cons, hf, lookupKey_cons, hk, ih]

theorem lookupKey_upsert (k k' v : List Char) (m : List (List Char × List Char)) :
    lookupKey k (upsert m k' v) = if k' = k then some v else lookupKey k m := by
  unfold upsert
  rw [lookupKey_append]
  by_cases hk : k' = k
  · subst hk
    have hnone : lookupKey k' (m.filter (keyNe k')) = none := by
      induction m with
      | nil => rfl
      | cons p t ih =>
        by_cases hp : p.1 = k'
        · have hf : keyNe k' p = false := by simp [keyNe, hp]
          simp [List.filter_cons, hf, ih]
        · have hf : keyNe k' p = true := by simp [keyNe, hp]
          simp [List.filter_cons, hf, lookupKey_cons, hp, ih]
    rw [hnone, if_pos rfl]
    simp [lookupKey]
  · rw [lookupKey_filter_ne hk, if_neg hk]
    have hone : lookupKey k [(k', v)] = none := by simp [lookupKey, hk]
    rw [hone]
    cases lookupKey k m <;> rfl

theorem lookupKey_foldl_upsert (k : List Char) (ps m : List (List Char × List Char)) :
    lookupKey k (ps.foldl (fun m p => upsert m p.1 p.2) m)
      = (lookupKey k ps.reverse).or (lookupKey k m) := by
  induction ps generalizing m with
  | nil => simp [lookupKey]
  | cons p t ih =>
    rw [List.reverse_cons, lookupKey_append, List.foldl_cons, ih, lookupKey_upsert]
    by_cases hp : p.1 = k
    · have h1 : lookupKey k [p] = some p.2 := by simp [lookupKey, hp]
      rw [h1, if_pos hp]
      cases lookupKey k t.reverse <;> rfl
    · have h1 : lookupKey k [p] = none := by simp [lookupKey, hp]
      rw [h1, if_neg hp]
      cases lookupKey k t.reverse <;> rfl

/-! ## Decoding of a fully quoted value -/

theorem quoted_as_concat (inner : List Char) :
    ( '"' :: (inner ++ [ '"'])) = ( '"' :: inner) ++ [ '"'] := by simp

theorem parseLine_quoted (k inner : List Char) (hk : '=' ∉ k)
    (hh : k.head? ≠ some '#') :
    parseLine (k ++ '=' :: '"' :: (inner ++ [ '"'])) = some (k, unescape inner) := by
  have hmem : ('"' : Char) ∈ k ++ '=' :: '"' :: (inner ++ [ '"']) :=
    List.mem_append.mpr (Or.inr (by simp))
  have hall : ¬ ((k ++ '=' :: '"' :: (inner ++ [ '"'])).all
      (fun c => decide (c = ' ')) = true) := by
    intro hcontra
    rw [List.all_eq_true] at hcontra
    have := hcontra _ hmem
    simp at this
  have hhead : ¬ ((k ++ '=' :: '"' :: (inner ++ [ '"'])).head? = some '#') := by
    cases k with
    | nil => simp
    | cons x t =>
      simp only [List.cons_append, List.head?_cons]
      simpa using hh
  unfold parseLine
  rw [if_neg hall, if_neg hhead, splitFirst_append hk]
  show some (k, parseValue ( '"' :: (inner ++ [ '"']))) = some (k, unescape inner)
  have hcond : 2 ≤ ( '"' :: (inner ++ [ '"'])).length
      ∧ (( '"' :: (inner ++ [ '"'])).head? = some '"')
      ∧ (( '"' :: (inner ++ [ '"'])).getLast? = some '"') := by
    refine ⟨by simp, rfl, ?_⟩
    rw [quoted_as_concat]
    exact List.getLast?_concat _
  unfold parseValue
  rw [if_pos hcond]
  rw [quoted_as_concat, List.dropLast_concat]
  simp

/-! ## The claims -/

/-- C1 (counterexample): parsing `A="{\"type\":\"service_account\"}"` yields
the value `{"type":"service_account"}`, which is not the backslash-retaining
string `{\"type\":\"service_account\"}`: escaped interior quotes are NOT
left exactly as found, contrary to the claim.  This is the literal
input/output pair pinned by `TestGetVars` (src/main_test.go:64-68) and by
spec §8. -/
theorem c1_escaped_quotes_collapse :
    parseConfig ( "A=\"\x7b\\\"type\\\":\\\"service_account\\\"\x7d\"").data
      = [(( "A").data, ( "\x7b\"type\":\"service_account\"\x7d").data)]
    ∧ ( "\x7b\"type\":\"service_account\"\x7d").data
      ≠ ( "\x7b\\\"type\\\":\\\"service_account\\\"\x7d").data := by
  constructor
  · decide
  · decide

/-- C1 (amended): for every assignment line whose value is wrapped in a
matching pair of double quotes, the Assignment Parser strips exactly one
leading and one trailing double quote and collapses each escaped interior
quote (backslash-quote pair) to a bare quote, so a value such as
`"{\"type\":\"service_account\"}"` loses its backslashes after
unwrapping. -/
theorem c1_quote_unwrap_unescapes (k inner : List Char)
    (hk : '=' ∉ k) (hh : k.head? ≠ some '#') :
    parseLine (k ++ '=' :: '"' :: (inner ++ [ '"'])) = some (k, unescape inner) :=
  parseLine_quoted k inner hk hh

/-- Witness for C1 at the JSON blob of the spec and test suite. -/
theorem c1_quote_unwrap_unescapes_witness :
    ('=' ∉ ( "A").data)
    ∧ parseLine (( "A").data ++ '=' :: '"'
        :: (( "\x7b\\\"type\\\":\\\"service_account\\\"\x7d").data ++ [ '"']))
      = some (( "A").data,
          unescape ( "\x7b\\\"type\\\":\\\"service_account\\\"\x7d").data)
    ∧ unescape ( "\x7b\\\"type\\\":\\\"service_account\\\"\x7d").data
      = ( "\x7b\"type\":\"service_account\"\x7d").data :=
  ⟨by decide, c1_quote_unwrap_unescapes _ _ (by decide) (by decide), by decide⟩

/-- C2: `replaceLine` never rewrites a line whose comment part (after the
first `#`) does not contain `{update}` — in particular a line without `#`,
or with the marker only in the value portion, is returned unchanged for
every variable name and new value. -/
theorem c2_value_marker_never_rewrites (line k v : List Char)
    (h : markedComment line = false) : replaceLine line k v = line :=
  markedComment_eq_false h k v

/-- Witness for C2: `GOOS='windows{update}'` carries the marker only in its
value and stays unchanged under substitution for `GOOS=linux`. -/
theorem c2_value_marker_never_rewrites_witness :
    markedComment ( "GOOS=\x27windows{update}\x27").data = false
    ∧ replaceLine ( "GOOS=\x27windows{update}\x27").data ( "GOOS").data ( "linux").data
      = ( "GOOS=\x27windows{update}\x27").data :=
  ⟨by decide, c2_value_marker_never_rewrites _ _ _ (by decide)⟩

/-- C3 (counterexample): the fold of `replaceLine` over the environment is
NOT order-independent in general.  Three concrete order-dependent
environments: a substituted value containing `#`, an environment name
containing `#`, and an environment name containing `=` (each applied once
per key, in the two opposite orders, to the same line). -/
theorem c3_order_dependent :
    (applyEnv [(( "AB").data, ( "1#2").data), (( "A").data, ( "3").data)]
        ( "AB=z #{update}").data
      ≠ applyEnv [(( "A").data, ( "3").data), (( "AB").data, ( "1#2").data)]
        ( "AB=z #{update}").data)
    ∧ (applyEnv [(( "A#B").data, ( "1").data), (( "A").data, ( "2").data)]
        ( "A#B=z #{update}").data
      ≠ applyEnv [(( "A").data, ( "2").data), (( "A#B").data, ( "1").data)]
        ( "A#B=z #{update}").data)
    ∧ (applyEnv [(( "A").data, ( "3").data), (( "A=\x273").data, ( "9").data)]
        ( "AB=z #{update}").data
      ≠ applyEnv [(( "A=\x273").data, ( "9").data), (( "A").data, ( "3").data)]
        ( "AB=z #{update}").data) := by
  refine ⟨by decide, by decide, by decide⟩

/-- C3 (amended): for every input line and every finite set of environment
key/value pairs (distinct keys) whose names contain neither `=` nor `#` and
whose values contain no `#`, applying `replaceLine` once for each key, in
any order, produces the same final line. -/
theorem c3_fold_order_independent (env env' : List (List Char × List Char))
    (line : List Char) (hperm : env.Perm env')
    (hkeys : env.Pairwise (fun p q => p.1 ≠ q.1))
    (hwf : ∀ p ∈ env, ('=' ∉ p.1 ∧ '#' ∉ p.1) ∧ '#' ∉ p.2) :
    applyEnv env line = applyEnv env' line := by
  unfold applyEnv
  refine List.Perm.foldl_eq' hperm ?_ line
  intro x hx y hy z
  by_cases hxy : x = y
  · subst hxy; rfl
  · have hk : x.1 ≠ y.1 :=
      List.Pairwise.forall (fun _ _ h => Ne.symm h) hkeys hx hy hxy
    obtain ⟨⟨hxe, hxh⟩, hxv⟩ := hwf x hx
    obtain ⟨⟨hye, hyh⟩, hyv⟩ := hwf y hy
    exact replaceLine_comm z x.1 x.2 y.1 y.2 hk hxe hxh hxv hye hyh hyv

/-- Witness for C3 on a two-key environment in both orders. -/
theorem c3_fold_order_independent_witness :
    applyEnv [(( "GOOS").data, ( "linux").data), (( "CC").data, ( "gcc").data)]
        ( "GOOS=windows # {update}").data
      = applyEnv [(( "CC").data, ( "gcc").data), (( "GOOS").data, ( "linux").data)]
        ( "GOOS=windows # {update}").data :=
  c3_fold_order_independent _ _ _ (by decide) (by decide) (by decide)

/-- C4: on every eligible line (starts with the variable name, has a `#`,
and the part after the first `#` contains `{update}`), `replaceLine`
returns exactly `KEY='NEWVALUE' #ORIGINALCOMMENT`: the new value is wrapped
in single quotes and the text after the first `#` is reproduced
verbatim. -/
theorem c4_rewrite_canonical_form (line k v a c : List Char)
    (hp : k <+: line) (hs : splitFirst '#' line = some (a, c))
    (hm : marker <:+: c) :
    replaceLine line k v = k ++ eqQuote ++ v ++ quoteSpHash ++ c :=
  replaceLine_marked hp hs hm

/-- Witness for C4: `GOOS=windows # {update}` with `GOOS=linux` becomes
`GOOS='linux' # {update}`. -/
theorem c4_rewrite_canonical_form_witness :
    replaceLine ( "GOOS=windows # {update}").data ( "GOOS").data ( "linux").data
      = ( "GOOS=\x27linux\x27 # {update}").data := by
  have h := c4_rewrite_canonical_form ( "GOOS=windows # {update}").data
    ( "GOOS").data ( "linux").data ( "GOOS=windows ").data ( " {update}").data
    (by decide) (by decide) (by decide)
  rw [h]
  decide

/-- C5: the scenario text parses to exactly the mapping
`{A: "B", C: "D=", E: "=F"}`: the comment-only lines (including `#G=H`
despite its `=`) contribute no entries, the embedded `=` is not a second
delimiter, and quote-unwrapping applies to `E`. -/
theorem c5_everything_scenario :
    parseConfig ( "A=B\n# comment\nC=D=\nE=\"=F\"\n#G=H").data
      = [(( "A").data, ( "B").data), (( "C").data, ( "D=").data),
         (( "E").data, ( "=F").data)] := by
  decide

/-- C6: for every environment and every non-empty input, the output of
`replaceConfigValues` ends in a newline character (every line, the last
included, is re-emitted with a trailing newline), regardless of whether the
input ended with one. -/
theorem c6_trailing_newline (env : List (List Char × List Char))
    (cfg : List Char) (h : cfg ≠ []) :
    ∃ out, replaceConfigValues (Except.ok env) cfg = Except.ok out
      ∧ out.getLast? = some '\n' := by
  refine ⟨_, rfl, ?_⟩
  exact flatten_map_newline_getLast (applyEnv env) (scanLines cfg) (scanLines_ne_nil h)

/-- Witness for C6, once without and once with a trailing newline in the
input. -/
theorem c6_trailing_newline_witness :
    (( "GOOS=windows").data ≠ []
      ∧ ∃ out, replaceConfigValues (Except.ok []) ( "GOOS=windows").data = Except.ok out
          ∧ out.getLast? = some '\n')
    ∧ (( "GOOS=windows\n").data ≠ []
      ∧ ∃ out, replaceConfigValues (Except.ok []) ( "GOOS=windows\n").data = Except.ok out
          ∧ out.getLast? = some '\n') :=
  ⟨⟨by decide, c6_trailing_newline [] _ (by decide)⟩,
   ⟨by decide, c6_trailing_newline [] _ (by decide)⟩⟩

/-- C7: when no environment variable name is a prefix of any line carrying
an update-marked comment, `replaceConfigValues` is a no-op pass-through: it
returns the input unchanged modulo newline normalization, and the absence
of any eligible line is not an error. -/
theorem c7_noop_passthrough (env : List (List Char × List Char))
    (cfg : List Char)
    (h : ∀ l ∈ scanLines cfg, markedComment l = true → ∀ p ∈ env, ¬ p.1 <+: l) :
    replaceConfigValues (Except.ok env) cfg
      = Except.ok (specNewlineNormalized cfg) := by
  have hdef : replaceConfigValues (Except.ok env) cfg
      = Except.ok (((scanLines cfg).map
          (fun line => applyEnv env line ++ [ '\n'])).flatten) := rfl
  rw [hdef]
  unfold specNewlineNormalized
  congr 1
  congr 1
  apply List.map_congr_left
  intro l hl
  congr 1
  apply applyEnv_fix
  intro p hp
  rcases hs : splitFirst '#' l with _ | ⟨a, c⟩
  · exact replaceLine_no_hash hs
  · by_cases hm : marker <:+: c
    · exact replaceLine_prefix_miss (h l hl (markedComment_eq_true hs hm) p hp)
    · exact replaceLine_not_marked hs hm

/-- Witness for C7: a marked line whose key matches no environment name. -/
theorem c7_noop_passthrough_witness :
    replaceConfigValues (Except.ok [(( "ZZZ").data, ( "1").data)])
        ( "A=B # {update}\nC=D").data
      = Except.ok (specNewlineNormalized ( "A=B # {update}\nC=D").data) :=
  c7_noop_passthrough _ _ (by decide)

/-- C8: parsing keeps the value of the last occurrence of a duplicated key
(last-write-wins): for every text and key, looking the key up in the parsed
map equals looking it up in the reversed assignment sequence (the latest
assignment wins), and concretely `A=1\nA=2` yields the single entry
`A=2`. -/
theorem c8_last_write_wins :
    (∀ s k, lookupKey k (parseConfig s)
        = lookupKey k (configAssignments s).reverse)
    ∧ parseConfig ( "A=1\nA=2").data = [(( "A").data, ( "2").data)] := by
  constructor
  · intro s k
    unfold parseConfig
    rw [lookupKey_foldl_upsert]
    cases lookupKey k (configAssignments s).reverse <;> rfl
  · decide

/-- C9: in update mode, a failure of `replaceConfigValues` (the live
environment cannot be parsed) is surfaced by `updateConfig` to its caller
with the `failure replacing values` wrapping, and `deployNewConfig` is
invoked exactly when `replaceConfigValues` has returned successfully — a
failed parse never pushes the configuration. -/
theorem c9_parse_error_aborts_deploy
    (envParse : Except String (List (List Char × List Char)))
    (deployResult : Except String Unit) (cfg : List Char) :
    ((updateConfig envParse deployResult cfg).2 = true
      ↔ ∃ nc, replaceConfigValues envParse cfg = Except.ok nc)
    ∧ ∀ e, envParse = Except.error e →
        updateConfig envParse deployResult cfg
          = (Except.error ( "failure replacing values: "
              ++ ( "failed to parse environment variables using godotenv.Parse: "
                ++ e)), false) := by
  constructor
  · rcases hrc : replaceConfigValues envParse cfg with e | nc
    · simp [updateConfig, hrc]
    · cases deployResult <;> simp [updateConfig, hrc]
  · rintro e rfl
    rfl

/-- Witness for C9 at a concrete failed environment parse. -/
theorem c9_parse_error_aborts_deploy_witness :
    updateConfig (Except.error "boom") (Except.ok ()) ( "A=B").data
      = (Except.error ( "failure replacing values: "
          ++ ( "failed to parse environment variables using godotenv.Parse: "
            ++ "boom")), false) :=
  (c9_parse_error_aborts_deploy (Except.error "boom") (Except.ok ())
    ( "A=B").data).2 "boom" rfl

/-- C10: when an environment name `k` is a proper prefix of a line's actual
key (the part before the first `=`) and the line carries an update-marked
comment, `replaceLine` emits `k` as the key of the rewritten line: the
rewritten line is `k ++ ='...' #comment`, and splitting it at its first `=`
returns `k` — the line now assigns the shorter environment variable. -/
theorem c10_shorter_key_captures_line (line k v key rest a c : List Char)
    (hkey : splitFirst '=' line = some (key, rest)) (hpk : k <+: key)
    (hne : k ≠ key) (hs : splitFirst '#' line = some (a, c))
    (hm : marker <:+: c) :
    replaceLine line k v = k ++ eqQuote ++ v ++ quoteSpHash ++ c
      ∧ splitFirst '=' (replaceLine line k v)
          = some (k, squote :: (v ++ quoteSpHash ++ c)) := by
  obtain ⟨hline, hkeq⟩ := splitFirst_eq_some hkey
  have hknoeq : '=' ∉ k := fun hmem => hkeq (hpk.subset hmem)
  have hkeyline : key <+: line := by
    rw [hline]; exact List.prefix_append key ( '=' :: rest)
  have hp : k <+: line := hpk.trans hkeyline
  have h1 : replaceLine line k v = k ++ eqQuote ++ v ++ quoteSpHash ++ c :=
    replaceLine_marked hp hs hm
  refine ⟨h1, ?_⟩
  rw [h1]
  have hassoc : k ++ eqQuote ++ v ++ quoteSpHash ++ c
      = k ++ '=' :: (squote :: (v ++ quoteSpHash ++ c)) := by
    simp [eqQuote, List.append_assoc]
  rw [hassoc]
  exact splitFirst_append hknoeq _

/-- Witness for C10: `GO` (a proper prefix of `GOOS`) captures the line
`GOOS=windows # {update}`, producing a line whose key is `GO`. -/
theorem c10_shorter_key_captures_line_witness :
    replaceLine ( "GOOS=windows # {update}").data ( "GO").data ( "x").data
      = ( "GO").data ++ eqQuote ++ ( "x").data ++ quoteSpHash ++ ( " {update}").data
    ∧ splitFirst '=' (replaceLine ( "GOOS=windows # {update}").data
        ( "GO").data ( "x").data)
      = some (( "GO").data,
          squote :: (( "x").data ++ quoteSpHash ++ ( " {update}").data)) :=
  c10_shorter_key_captures_line ( "GOOS=windows # {update}").data ( "GO").data
    ( "x").data ( "GOOS").data ( "windows # \x7bupdate\x7d").data
    ( "GOOS=windows ").data ( " {update}").data
    (by decide) (by decide) (by decide) (by decide) (by decide)

end ConfigShim
